import Mathlib

/-!
Verification of the CPCC_UI nine-step comic-archive pipeline
(`new_module.py`) against its natural-language specification.

The development shallowly embeds the parts of the program the claims
are about:

* `natural_sort_key` and its helpers (C8, C10), including the Python
  semantics where `re.split(r'(\d+)', s)` splits on decimal-digit runs
  while `str.isdigit` also accepts characters such as superscript
  digits that `int()` rejects (the source of the fallback branch);
* the step-2 numbering algorithm with its collision loop and 4-digit
  overflow guard (C4);
* `BackupManager.rollback` over an abstract file store (C5);
* the step-7 two-phase renumber (C6);
* the step-8 compress-leaf transaction with injected failure points (C2);
* the step-9 zip-to-cbz rename over path lists (C7);
* `confirm_operation` (C9);
* per-item event traces (journal entry vs. filesystem mutation) of
  every pipeline step (C1) and the dry-run effect traces (C3).

Names follow the Python source wherever Lean allows.
-/

namespace CPCC

/-! ## Character-level model

Characters matched by `\d` in `re.split(r'(\d+)', ...)` are the decimal
digits (Unicode category Nd); we model the ASCII ones the pipeline's
filenames use.  Python's `str.isdigit` is broader: it also accepts
characters with the digit property that are *not* decimal digits, such
as the superscripts '¹', '²', '³', on which `int()` raises `ValueError`.
That gap is what makes the `except` fallback of `natural_sort_key`
reachable, so the model keeps both predicates. -/

/-- Characters matched by the regex class `\d` (decimal digits). -/
def isNd (c : Char) : Bool := c.isDigit

/-- Model of Python `str.isdigit` on a single character: decimal digits
plus digit-property characters rejected by `int()` (superscripts). -/
def isDigitProp (c : Char) : Bool :=
  c.isDigit || c = '¹' || c = '²' || c = '³'

/-- Model of Python `str.lower` (ASCII case folding). -/
def lowerStr (s : List Char) : List Char := s.map Char.toLower

/-- Model of `re.split(r'(\d+)', s)`: the list of alternating non-digit /
digit runs, including the (possibly empty) non-digit runs at the
boundaries, exactly as Python returns them. -/
def splitRuns : List Char → List (List Char)
  | [] => [[]]
  | c :: cs =>
    match splitRuns cs with
    | [] => [[]]
    | r :: rs =>
      if isNd c then
        match r, rs with
        | [], d :: rs2 => [] :: (c :: d) :: rs2
        | [], [] => [[], [c], []]
        | _ :: _, _ => [] :: [c] :: r :: rs
      else (c :: r) :: rs

/-- One element of a natural-sort key: Python puts `str` pieces at even
positions and `int` pieces at odd positions of the key list. -/
inductive KeyElem where
  | str : List Char → KeyElem
  | num : Nat → KeyElem
deriving DecidableEq

/-- Numeric value of a digit run, as computed by Python `int(...)`. -/
def toNatDigits (p : List Char) : Nat :=
  p.foldl (fun a c => a * 10 + (c.toNat - 48)) 0

/-- Key element for one piece of the split: `int(text) if text.isdigit()
else text.lower()`.  Returns `none` when `int` raises (the piece passes
`isdigit` but contains a non-decimal digit character). -/
def pieceKey (p : List Char) : Option KeyElem :=
  if p ≠ [] ∧ p.all isDigitProp then
    if p.all isNd then some (.num (toNatDigits p)) else none
  else some (.str (lowerStr p))

/-- Mapping `pieceKey` over all pieces, failing if any piece fails
(Python: the first exception aborts the list comprehension). -/
def mapPieces : List (List Char) → Option (List KeyElem)
  | [] => some []
  | p :: ps =>
    match pieceKey p, mapPieces ps with
    | some k, some ks => some (k :: ks)
    | _, _ => none

/-- The `try` body of `natural_sort_key`. -/
def natKeyCore (s : List Char) : Option (List KeyElem) :=
  mapPieces (splitRuns s)

/-- Model of `natural_sort_key`: the composite key, or on any parse
failure the single case-folded fallback key. -/
def natural_sort_key (s : List Char) : List KeyElem :=
  match natKeyCore s with
  | some ks => ks
  | none => [.str (lowerStr s)]

/-! ## Python comparison of keys

Python compares lists lexicographically, strings by code point, and
integers numerically; comparing an `int` with a `str` raises
`TypeError`.  `cmpElem`/`cmpKey` return `none` exactly where Python
would raise. -/

/-- Code-point comparison of strings (Python `str` ordering). -/
def cmpStr : List Char → List Char → Ordering
  | [], [] => .eq
  | [], _ :: _ => .lt
  | _ :: _, [] => .gt
  | a :: as, b :: bs =>
    match compare a.val b.val with
    | .eq => cmpStr as bs
    | o => o

/-- Comparison of two key elements; `none` models `TypeError`. -/
def cmpElem : KeyElem → KeyElem → Option Ordering
  | .str a, .str b => some (cmpStr a b)
  | .num a, .num b => some (compare a b)
  | _, _ => none

/-- Lexicographic comparison of two keys; `none` models `TypeError`;
a strict prefix compares less. -/
def cmpKey : List KeyElem → List KeyElem → Option Ordering
  | [], [] => some .eq
  | [], _ :: _ => some .lt
  | _ :: _, [] => some .gt
  | a :: as, b :: bs =>
    match cmpElem a b with
    | none => none
    | some .eq => cmpKey as bs
    | some o => some o

/-- The key-based "not greater" relation `sorted` uses: `a` may stay
before `b`. -/
def keyLe (a b : List Char) : Prop :=
  cmpKey (natural_sort_key a) (natural_sort_key b) ≠ some .gt

instance : DecidableRel keyLe := fun a b => by
  unfold keyLe; infer_instance

/-- Model of Python `sorted(names, key=natural_sort_key)`: a stable
sort by the natural-sort key. -/
def pySorted (names : List (List Char)) : List (List Char) :=
  List.insertionSort keyLe names

end CPCC

namespace CPCC

/-! ## Structural facts about `splitRuns` and keys -/

/-- Alternation invariant for the pieces of a split: starting at parity
`b = false`, even positions are runs with no decimal digit and odd
positions are nonempty runs of decimal digits. -/
def runsOk : Bool → List (List Char) → Bool
  | _, [] => true
  | false, p :: ps => p.all (fun c => !isNd c) && runsOk true ps
  | true, p :: ps => (!p.isEmpty && p.all isNd) && runsOk false ps

theorem splitRuns_runsOk (s : List Char) : runsOk false (splitRuns s) = true := by
  induction s with
  | nil => rfl
  | cons c cs ih =>
    unfold splitRuns
    cases hsp : splitRuns cs with
    | nil => rfl
    | cons r rs =>
      rw [hsp] at ih
      simp only [runsOk, Bool.and_eq_true] at ih
      obtain ⟨hr, hrs⟩ := ih
      by_cases hc : isNd c = true
      · simp only [hc, if_true]
        cases r with
        | nil =>
          cases rs with
          | nil => simp [runsOk, hc]
          | cons d rs2 =>
            simp only [runsOk, Bool.and_eq_true] at hrs
            obtain ⟨⟨hd1, hd2⟩, hrs2⟩ := hrs
            simp [runsOk, hc, hd2, hrs2]
        | cons x r' => simp [runsOk, hc, hr, hrs]
      · simp only [hc, if_false, Bool.false_eq_true]
        simp [runsOk, hc, hr, hrs]

/-- Recognizer for the `str` constructor. -/
def isStrElem : KeyElem → Bool
  | .str _ => true
  | .num _ => false

/-- Alternation invariant for key lists: with `b = false`, even
positions are strings and odd positions are integers. -/
def elemsAlt : Bool → List KeyElem → Bool
  | _, [] => true
  | false, .str _ :: ks => elemsAlt true ks
  | false, .num _ :: _ => false
  | true, .num _ :: ks => elemsAlt false ks
  | true, .str _ :: _ => false

theorem isNd_isDigitProp {c : Char} (h : isNd c = true) : isDigitProp c = true := by
  simp [isDigitProp, isNd] at h ⊢
  exact Or.inl (Or.inl (Or.inl h))

theorem mapPieces_elemsAlt :
    ∀ (ps : List (List Char)) (b : Bool) (ks : List KeyElem),
      runsOk b ps = true → mapPieces ps = some ks → elemsAlt b ks = true := by
  intro ps
  induction ps with
  | nil =>
    intro b ks _ hm
    simp only [mapPieces, Option.some.injEq] at hm
    subst hm; cases b <;> rfl
  | cons p ps ih =>
    intro b ks hok hm
    simp only [mapPieces] at hm
    cases hpk : pieceKey p with
    | none => rw [hpk] at hm; exact absurd hm (by simp)
    | some k =>
      rw [hpk] at hm
      cases hmp : mapPieces ps with
      | none => rw [hmp] at hm; exact absurd hm (by simp)
      | some ks' =>
        rw [hmp] at hm
        simp only [Option.some.injEq] at hm
        subst hm
        cases b with
        | false =>
          simp only [runsOk, Bool.and_eq_true] at hok
          obtain ⟨hp, hps⟩ := hok
          have hstr : ∃ t, k = .str t := by
            unfold pieceKey at hpk
            by_cases hcond : p ≠ [] ∧ p.all isDigitProp = true
            · rw [if_pos hcond] at hpk
              by_cases hnd : p.all isNd = true
              · cases hcond.1 (by
                  cases p with
                  | nil => rfl
                  | cons x xs =>
                    exfalso
                    simp only [List.all_cons, Bool.and_eq_true] at hnd hp
                    simp [hnd.1] at hp)
              · rw [if_neg hnd] at hpk; exact absurd hpk (by simp)
            · rw [if_neg hcond] at hpk
              exact ⟨lowerStr p, by simpa using hpk.symm⟩
          obtain ⟨t, rfl⟩ := hstr
          simpa only [elemsAlt] using ih true ks' hps hmp
        | true =>
          simp only [runsOk, Bool.and_eq_true] at hok
          obtain ⟨⟨hne, hp⟩, hps⟩ := hok
          have hnum : ∃ n, k = .num n := by
            unfold pieceKey at hpk
            have hpne : p ≠ [] := by
              cases p with
              | nil => simp [List.isEmpty] at hne
              | cons x xs => simp
            have hdp : p.all isDigitProp = true := by
              rw [List.all_eq_true] at hp ⊢
              exact fun c hc => isNd_isDigitProp (hp c hc)
            rw [if_pos ⟨hpne, hdp⟩, if_pos hp] at hpk
            exact ⟨toNatDigits p, by simpa using hpk.symm⟩
          obtain ⟨n, rfl⟩ := hnum
          simpa only [elemsAlt] using ih false ks' hps hmp

/-- The key produced by `natural_sort_key` always alternates
string/integer starting with a string, in both branches. -/
theorem natural_sort_key_elemsAlt (s : List Char) :
    elemsAlt false (natural_sort_key s) = true := by
  unfold natural_sort_key
  cases h : natKeyCore s with
  | none => rfl
  | some ks =>
    exact mapPieces_elemsAlt (splitRuns s) false ks (splitRuns_runsOk s) h

/-- Comparing two keys that alternate with the same parity never hits
the `int`-versus-`str` `TypeError` case. -/
theorem cmpKey_alt_ne_none :
    ∀ (ks ls : List KeyElem) (b : Bool),
      elemsAlt b ks = true → elemsAlt b ls = true → cmpKey ks ls ≠ none := by
  intro ks
  induction ks with
  | nil => intro ls b _ _; cases ls <;> simp [cmpKey]
  | cons k ks ih =>
    intro ls b hk hl
    cases ls with
    | nil => simp [cmpKey]
    | cons l ls =>
      cases b with
      | false =>
        cases k with
        | num _ => simp [elemsAlt] at hk
        | str t₁ =>
          cases l with
          | num _ => simp [elemsAlt] at hl
          | str t₂ =>
            simp only [elemsAlt] at hk hl
            simp only [cmpKey, cmpElem]
            cases cmpStr t₁ t₂ with
            | eq => exact ih ls true hk hl
            | lt => simp
            | gt => simp
      | true =>
        cases k with
        | str _ => simp [elemsAlt] at hk
        | num n₁ =>
          cases l with
          | str _ => simp [elemsAlt] at hl
          | num n₂ =>
            simp only [elemsAlt] at hk hl
            simp only [cmpKey, cmpElem]
            cases compare n₁ n₂ with
            | eq => exact ih ls false hk hl
            | lt => simp
            | gt => simp

/-- Positional form of the alternation invariant. -/
theorem elemsAlt_get :
    ∀ (ks : List KeyElem) (b : Bool), elemsAlt b ks = true →
      ∀ (i : Nat) (h : i < ks.length),
        isStrElem (ks.get ⟨i, h⟩) = (decide (i % 2 = 0) != b) := by
  intro ks
  induction ks with
  | nil => intro b _ i h; simp at h
  | cons k ks ih =>
    intro b hb i h
    cases i with
    | zero =>
      cases b with
      | false =>
        cases k with
        | str _ => rfl
        | num _ => simp [elemsAlt] at hb
      | true =>
        cases k with
        | str _ => simp [elemsAlt] at hb
        | num _ => rfl
    | succ j =>
      have htail : elemsAlt (!b) ks = true := by
        cases b <;> cases k <;> simp_all [elemsAlt]
      have hj : j < ks.length := Nat.lt_of_succ_lt_succ h
      have := ih (!b) htail j hj
      have hpar : decide ((j + 1) % 2 = 0) = !decide (j % 2 = 0) := by
        by_cases hj0 : j % 2 = 0
        · have hs : (j + 1) % 2 = 1 := by omega
          simp [hj0, hs]
        · have hs : (j + 1) % 2 = 0 := by omega
          simp [hj0, hs]
      calc isStrElem ((k :: ks).get ⟨j + 1, h⟩)
      _ = isStrElem (ks.get ⟨j, hj⟩) := rfl
      _ = (decide (j % 2 = 0) != !b) := this
      _ = (decide ((j + 1) % 2 = 0) != b) := by
        rw [hpar]; cases b <;> cases hd : decide (j % 2 = 0) <;> rfl

end CPCC

namespace CPCC

/-- C8: `natural_sort_key` splits a name into alternating non-digit/digit
runs where digit runs compare as integers and non-digit runs compare
case-insensitively, so sorting by it gives "page2" before "page10" and
sorts ["2.jpg","10.jpg","1.jpg"] to ["1.jpg","2.jpg","10.jpg"]; on any
parse failure (witnessed concretely by the superscript-digit name "¹²³",
where `isdigit` holds but `int` raises) it falls back to the single
case-folded string key and never raises. -/
theorem C8_natural_sort_key_contract :
    cmpKey (natural_sort_key "page2".data) (natural_sort_key "page10".data)
        = some .lt
    ∧ pySorted ["2.jpg".data, "10.jpg".data, "1.jpg".data]
        = ["1.jpg".data, "2.jpg".data, "10.jpg".data]
    ∧ (∀ s : List Char,
        (∃ ks, natKeyCore s = some ks ∧ natural_sort_key s = ks)
        ∨ (natKeyCore s = none ∧ natural_sort_key s = [.str (lowerStr s)]))
    ∧ natKeyCore "¹²³".data = none
    ∧ natural_sort_key "¹²³".data = [.str (lowerStr "¹²³".data)] := by
  refine ⟨by decide, by decide, ?_, by decide, by decide⟩
  intro s
  unfold natural_sort_key
  cases h : natKeyCore s with
  | none => exact Or.inr ⟨rfl, rfl⟩
  | some ks => exact Or.inl ⟨ks, rfl, rfl⟩

/-- C10: whenever the fallback branch is not taken, the key produced by
`natural_sort_key` has strings at even indices and integers at odd
indices, and comparing the keys of any two names (either branch) never
compares an integer with a string, so key comparison is total (never
raises a `TypeError`). -/
theorem C10_key_positions_and_total_comparison :
    (∀ (s : List Char) (ks : List KeyElem), natKeyCore s = some ks →
      ∀ (i : Nat) (h : i < ks.length),
        isStrElem (ks.get ⟨i, h⟩) = decide (i % 2 = 0))
    ∧ (∀ a b : List Char,
        cmpKey (natural_sort_key a) (natural_sort_key b) ≠ none) := by
  constructor
  · intro s ks hks i h
    have halt : elemsAlt false ks = true :=
      mapPieces_elemsAlt (splitRuns s) false ks (splitRuns_runsOk s) hks
    have := elemsAlt_get ks false halt i h
    simpa using this
  · intro a b
    exact cmpKey_alt_ne_none _ _ false
      (natural_sort_key_elemsAlt a) (natural_sort_key_elemsAlt b)

/-- Concrete instantiation of C10: the key of "page2" exists (no
fallback), its index 1 holds an integer, and comparing the keys of
"page2" and "page10" is defined. -/
theorem C10_key_positions_and_total_comparison_witness :
    natKeyCore "page2".data = some [.str (lowerStr "page".data), .num 2, .str []]
    ∧ isStrElem (([KeyElem.str (lowerStr "page".data), .num 2,
        .str []]).get ⟨1, by decide⟩) = decide (1 % 2 = 0)
    ∧ cmpKey (natural_sort_key "page2".data) (natural_sort_key "page10".data)
        ≠ none := by
  refine ⟨by decide, ?_, ?_⟩
  · exact C10_key_positions_and_total_comparison.1 "page2".data _ (by decide) 1
      (by decide)
  · exact C10_key_positions_and_total_comparison.2 "page2".data "page10".data

end CPCC

namespace CPCC

/-! ## Decimal formatting

Model of the Python format `f"{n:04d}"` used for the 4-digit names in
steps 2, 3 and 7: the decimal digits of `n`, left-padded with zeros to
at least four characters (numbers of five or more digits are printed in
full, not truncated). -/

/-- The character for a single decimal digit (`d ≤ 9`). -/
def digitChar : Nat → Char
  | 0 => '0' | 1 => '1' | 2 => '2' | 3 => '3' | 4 => '4'
  | 5 => '5' | 6 => '6' | 7 => '7' | 8 => '8' | _ => '9'

/-- Fuel-bounded digit extraction; any `fuel > n` computes the digits. -/
def natToDigitsAux : Nat → Nat → List Char
  | 0, _ => []
  | fuel + 1, n =>
    if n < 10 then [digitChar n]
    else natToDigitsAux fuel (n / 10) ++ [digitChar (n % 10)]

/-- The decimal digit string of `n` (Python `str(n)` for `n ≥ 0`). -/
def natToDigits (n : Nat) : List Char := natToDigitsAux (n + 1) n

/-- Model of `f"{n:04d}"`. -/
def fmt04 (n : Nat) : List Char :=
  List.replicate (4 - (natToDigits n).length) '0' ++ natToDigits n

theorem natToDigitsAux_irrel :
    ∀ (n f₁ f₂ : Nat), n < f₁ → n < f₂ →
      natToDigitsAux f₁ n = natToDigitsAux f₂ n := by
  intro n
  induction n using Nat.strong_induction_on with
  | _ n ih =>
    intro f₁ f₂ h₁ h₂
    cases f₁ with
    | zero => omega
    | succ g₁ =>
      cases f₂ with
      | zero => omega
      | succ g₂ =>
        by_cases h10 : n < 10
        · simp [natToDigitsAux, h10]
        · have hdiv : n / 10 < n := Nat.div_lt_self (by omega) (by omega)
          simp only [natToDigitsAux, if_neg h10]
          congr 1
          exact ih (n / 10) hdiv g₁ g₂ (by omega) (by omega)

/-- Defining equation of `natToDigits`, fuel eliminated. -/
theorem natToDigits_eq (n : Nat) :
    natToDigits n
      = if n < 10 then [digitChar n]
        else natToDigits (n / 10) ++ [digitChar (n % 10)] := by
  by_cases h10 : n < 10
  · simp [natToDigits, natToDigitsAux, h10]
  · have hdiv : n / 10 < n := Nat.div_lt_self (by omega) (by omega)
    simp only [natToDigits, natToDigitsAux, if_neg h10]
    congr 1
    exact natToDigitsAux_irrel (n / 10) n (n / 10 + 1) hdiv (by omega)

theorem digitChar_isNd {d : Nat} (h : d < 10) : isNd (digitChar d) = true := by
  interval_cases d <;> decide

theorem digitChar_toNat {d : Nat} (h : d < 10) : (digitChar d).toNat - 48 = d := by
  interval_cases d <;> decide

theorem natToDigits_ne_nil (n : Nat) : natToDigits n ≠ [] := by
  rw [natToDigits_eq]
  split <;> simp

theorem natToDigits_all_isNd (n : Nat) : (natToDigits n).all isNd = true := by
  induction n using Nat.strong_induction_on with
  | _ n ih =>
    rw [natToDigits_eq]
    split
    · simpa using digitChar_isNd (by omega)
    · rename_i h
      have hd : n / 10 < n := Nat.div_lt_self (by omega) (by omega)
      simp only [List.all_append, List.all_cons, List.all_nil, Bool.and_eq_true]
      exact ⟨ih _ hd, digitChar_isNd (Nat.mod_lt _ (by omega)), trivial⟩

theorem toNatDigits_append (p q : List Char) :
    toNatDigits (p ++ q)
      = q.foldl (fun a c => a * 10 + (c.toNat - 48)) (toNatDigits p) := by
  simp [toNatDigits, List.foldl_append]

theorem toNatDigits_natToDigits (n : Nat) : toNatDigits (natToDigits n) = n := by
  induction n using Nat.strong_induction_on with
  | _ n ih =>
    rw [natToDigits_eq]
    split
    · rename_i h
      simp only [toNatDigits, List.foldl_cons, List.foldl_nil, Nat.zero_mul,
        Nat.zero_add]
      exact digitChar_toNat h
    · rename_i h
      have hd : n / 10 < n := Nat.div_lt_self (by omega) (by omega)
      rw [toNatDigits_append, ih _ hd]
      simp only [List.foldl_cons, List.foldl_nil]
      have := digitChar_toNat (Nat.mod_lt n (show 0 < 10 by omega))
      omega

theorem toNatDigits_replicate_zero (k : Nat) (q : List Char) :
    toNatDigits (List.replicate k '0' ++ q) = toNatDigits q := by
  induction k with
  | zero => rfl
  | succ k ih =>
    rw [List.replicate_succ, List.cons_append]
    simpa [toNatDigits] using ih

theorem toNatDigits_fmt04 (n : Nat) : toNatDigits (fmt04 n) = n := by
  rw [fmt04, toNatDigits_replicate_zero, toNatDigits_natToDigits]

theorem fmt04_injective : Function.Injective fmt04 := by
  intro a b h
  have := toNatDigits_fmt04 a
  rw [h, toNatDigits_fmt04] at this
  omega

theorem fmt04_all_isNd (n : Nat) : (fmt04 n).all isNd = true := by
  rw [fmt04, List.all_append]
  refine Bool.and_eq_true_iff.mpr ⟨?_, natToDigits_all_isNd n⟩
  simp only [List.all_eq_true]
  intro c hc
  rw [List.eq_of_mem_replicate hc]
  decide

theorem fmt04_ne_nil (n : Nat) : fmt04 n ≠ [] := by
  rw [fmt04]
  intro h
  exact natToDigits_ne_nil n (List.append_eq_nil.mp h).2

end CPCC

namespace CPCC

/-! ## Step 2 numbering (`step2_rename.process_subdir`)

The loop body computes `new_num = start_num + idx`, increments while
the 4-digit form is in `used_numbers`, breaks when
`new_num >= start_num + 10000`, renames to `f"{new_num:04d}.jpg"` and
adds the 4-digit form to `used_numbers`. -/

/-- Membership test of the loop condition, on the formatted strings the
code stores in `used_numbers`. -/
def numUsed (used : List Nat) (n : Nat) : Bool :=
  fmt04 n ∈ used.map fmt04

/-- Fuel-bounded form of `while f"{new_num:04d}" in used_numbers:
new_num += 1`. -/
def resolveNumAux : Nat → List Nat → Nat → Nat
  | 0, _, n => n
  | fuel + 1, used, n =>
    if numUsed used n then resolveNumAux fuel used (n + 1) else n

/-- The collision loop; `used.length + 1` iterations always suffice to
find a free number (`resolveNum_spec`). -/
def resolveNum (used : List Nat) (n : Nat) : Nat :=
  resolveNumAux (used.length + 1) used n

/-- The generic increment-until-free assignment mechanism: each computed
number is resolved against the used set, then recorded. -/
def assignResolve (used : List Nat) : List Nat → List Nat
  | [] => []
  | c :: cs => resolveNum used c :: assignResolve (resolveNum used c :: used) cs

/-- The numbers step 2 assigns in one directory holding `rem` files,
starting at file index `idx` with used set `used`. -/
def step2_go (start : Nat) : Nat → Nat → List Nat → List Nat
  | _, 0, _ => []
  | idx, rem + 1, used =>
    if start + 10000 ≤ resolveNum used (start + idx) then []
    else
      resolveNum used (start + idx)
        :: step2_go start (idx + 1) rem (resolveNum used (start + idx) :: used)

/-- Whether the overflow guard fires (`break` with a logged error). -/
def step2_goAborts (start : Nat) : Nat → Nat → List Nat → Bool
  | _, 0, _ => false
  | idx, rem + 1, used =>
    if start + 10000 ≤ resolveNum used (start + idx) then true
    else step2_goAborts start (idx + 1) rem (resolveNum used (start + idx) :: used)

/-- Numbers assigned by step 2 in a directory of `count` files. -/
def step2_assignNums (start count : Nat) : List Nat := step2_go start 0 count []

/-- Whether step 2 aborts in a directory of `count` files. -/
def step2_aborts (start count : Nat) : Bool := step2_goAborts start 0 count []

/-- File names step 2 produces (`f"{new_num:04d}.jpg"`). -/
def step2_names (start count : Nat) : List (List Char) :=
  (step2_assignNums start count).map (fun m => fmt04 m ++ ".jpg".data)

theorem numUsed_iff (used : List Nat) (n : Nat) :
    numUsed used n = true ↔ n ∈ used := by
  simp only [numUsed, List.mem_map, decide_eq_true_eq]
  constructor
  · rintro ⟨a, ha, he⟩
    rwa [fmt04_injective he] at ha
  · intro h
    exact ⟨n, h, rfl⟩

theorem length_filter_succ_lt {l : List Nat} {n : Nat} (h : n ∈ l) :
    (l.filter (fun m => decide (n + 1 ≤ m))).length
      < (l.filter (fun m => decide (n ≤ m))).length := by
  induction l with
  | nil => cases h
  | cons a l ih =>
    by_cases ha : a = n
    · subst ha
      have h1 : (decide (a + 1 ≤ a)) = false := by simp
      have h2 : (decide (a ≤ a)) = true := by simp
      have hmono : (l.filter (fun m => decide (a + 1 ≤ m))).length
          ≤ (l.filter (fun m => decide (a ≤ m))).length :=
        (List.monotone_filter_right l (fun x hx => by
          simp only [decide_eq_true_eq] at hx ⊢; omega)).length_le
      simp only [List.filter_cons, h1, h2, if_true, if_false,
        Bool.false_eq_true, List.length_cons]
      omega
    · have hl : n ∈ l := by
        cases h with
        | head => exact absurd rfl ha
        | tail _ h => exact h
      have := ih hl
      by_cases hna : n + 1 ≤ a
      · have h1 : (decide (n + 1 ≤ a)) = true := by simpa using hna
        have h2 : (decide (n ≤ a)) = true := by
          simp only [decide_eq_true_eq]; omega
        simp only [List.filter_cons, h1, h2, if_true, if_false,
          Bool.false_eq_true, List.length_cons]
        omega
      · have han : ¬ n ≤ a := by
          intro hc
          exact ha (by omega)
        have h1 : (decide (n + 1 ≤ a)) = false := by simpa using hna
        have h2 : (decide (n ≤ a)) = false := by simpa using han
        simp only [List.filter_cons, h1, h2]
        exact this

theorem resolveNumAux_spec :
    ∀ (fuel : Nat) (used : List Nat) (n : Nat),
      (used.filter (fun m => decide (n ≤ m))).length < fuel →
      resolveNumAux fuel used n ∉ used ∧ n ≤ resolveNumAux fuel used n := by
  intro fuel
  induction fuel with
  | zero => intro used n h; omega
  | succ fuel ih =>
    intro used n h
    by_cases hm : numUsed used n = true
    · have hmem : n ∈ used := (numUsed_iff used n).mp hm
      have hlt := length_filter_succ_lt hmem
      have hrec := ih used (n + 1) (by omega)
      simp only [resolveNumAux, hm, if_true]
      exact ⟨hrec.1, by omega⟩
    · simp only [resolveNumAux, hm, if_false, Bool.false_eq_true]
      exact ⟨fun hc => hm ((numUsed_iff used n).mpr hc), Nat.le_refl n⟩

theorem resolveNum_spec (used : List Nat) (n : Nat) :
    resolveNum used n ∉ used ∧ n ≤ resolveNum used n :=
  resolveNumAux_spec (used.length + 1) used n
    (Nat.lt_succ_of_le (List.length_filter_le _ _))

theorem resolveNum_eq_self {used : List Nat} {n : Nat} (h : n ∉ used) :
    resolveNum used n = n := by
  have hm : numUsed used n = false := by
    rw [Bool.eq_false_iff]
    intro hc
    exact h ((numUsed_iff used n).mp hc)
  simp [resolveNum, resolveNumAux, hm]

theorem assignResolve_nodup_aux :
    ∀ (cs used : List Nat),
      (assignResolve used cs).Nodup ∧ ∀ x ∈ assignResolve used cs, x ∉ used := by
  intro cs
  induction cs with
  | nil => intro used; exact ⟨List.nodup_nil, by simp [assignResolve]⟩
  | cons c cs ih =>
    intro used
    obtain ⟨hnd, hnotin⟩ := ih (resolveNum used c :: used)
    constructor
    · refine List.nodup_cons.mpr ⟨?_, hnd⟩
      intro hc
      exact hnotin _ hc (List.mem_cons_self _ _)
    · intro x hx
      cases hx with
      | head => exact (resolveNum_spec used c).1
      | tail _ hx =>
        intro hc
        exact hnotin x hx (List.mem_cons_of_mem _ hc)

theorem step2_go_eq (start : Nat) :
    ∀ (rem idx : Nat) (used : List Nat),
      idx ≤ 10000 → (∀ u ∈ used, u < start + idx) →
      step2_go start idx rem used
          = List.range' (start + idx) (min rem (10000 - idx))
        ∧ step2_goAborts start idx rem used = decide (10000 - idx < rem) := by
  intro rem
  induction rem with
  | zero =>
    intro idx used _ _
    simp [step2_go, step2_goAborts]
  | succ rem ih =>
    intro idx used hidx hused
    have hni : start + idx ∉ used := fun hc => by
      have := hused _ hc
      omega
    have hres : resolveNum used (start + idx) = start + idx :=
      resolveNum_eq_self hni
    by_cases hend : idx = 10000
    · subst hend
      have hguard : start + 10000 ≤ resolveNum used (start + 10000) := by omega
      simp [step2_go, step2_goAborts, hres]
    · have hlt : idx < 10000 := by omega
      have hguard : ¬ start + 10000 ≤ resolveNum used (start + idx) := by omega
      have hused2 : ∀ u ∈ resolveNum used (start + idx) :: used,
          u < start + (idx + 1) := by
        intro u hu
        cases hu with
        | head => omega
        | tail _ hu => have := hused _ hu; omega
      obtain ⟨h1, h2⟩ := ih (idx + 1) (resolveNum used (start + idx) :: used)
        (by omega) hused2
      constructor
      · simp only [step2_go, hguard, if_false]
        rw [h1, hres]
        have hmin : min (rem + 1) (10000 - idx) = min rem (10000 - (idx + 1)) + 1 := by
          omega
        rw [hmin, List.range'_succ]
        have : start + idx + 1 = start + (idx + 1) := by omega
        rw [this]
      · simp only [step2_goAborts, hguard, if_false]
        rw [h2]
        exact decide_eq_decide.mpr (by omega)

end CPCC

namespace CPCC

/-- C4: in step 2 the natural-sorted `.jpg` files of a directory are
assigned sequential zero-padded numbers starting at the configured
offset: with `count` files the assigned numbers are exactly
`start, start+1, …` (capped at 10000 files), the produced 4-digit
`.jpg` names are pairwise distinct (so nothing is overwritten), the
step aborts with a logged error exactly when a computed number reaches
`start + 10000` (i.e. more than 10000 files), the increment-until-free
collision mechanism always yields pairwise distinct numbers, and
computed numbers {5,5,6} yield the three distinct numbers 5, 6, 7. -/
theorem C4_step2_sequential_numbering :
    ∀ (start count : Nat),
      step2_assignNums start count = List.range' start (min count 10000)
      ∧ (step2_names start count).Nodup
      ∧ (step2_aborts start count = true ↔ 10000 < count)
      ∧ (∀ used cs : List Nat, (assignResolve used cs).Nodup)
      ∧ assignResolve [] [5, 5, 6] = [5, 6, 7] := by
  intro start count
  obtain ⟨h1, h2⟩ := step2_go_eq start count 0 [] (by omega) (by simp)
  have hnums : step2_assignNums start count
      = List.range' start (min count 10000) := by
    rw [step2_assignNums, h1]
    norm_num
  refine ⟨hnums, ?_, ?_, fun used cs => (assignResolve_nodup_aux cs used).1,
    by decide⟩
  · rw [step2_names, hnums]
    refine List.Nodup.map ?_ (List.nodup_range' _ _)
    intro a b hab
    exact fmt04_injective (List.append_cancel_right hab)
  · rw [step2_aborts, h2]
    simp

end CPCC

namespace CPCC

/-! ## Step 7: final two-phase renumber (`step7_final_rename`)

Per parent directory the code natural-sorts the `.jpg` files, moves each
to a fresh temporary directory keeping its name (phase 1, preserving the
sorted order in `temp_files`), then moves them back as
`f"{new_idx:04d}.jpg"` with `new_idx` counting from 1 in that order
(phase 2, `enumerate(temp_files, start=1)`). -/

/-- The literal `".jpg"` suffix. -/
def jpgExt : List Char := ".jpg".data

/-- The contiguously numbered name list `0001.jpg … 000N.jpg`. -/
def canonicalNames (n : Nat) : List (List Char) :=
  (List.range' 1 n).map (fun i => fmt04 i ++ jpgExt)

/-- Step 7 in one directory, as the map original-name → final-name in
sorted order. -/
def step7_map (files : List (List Char)) : List (List Char × List Char) :=
  (List.enumFrom 1 (pySorted files)).map (fun p => (p.2, fmt04 p.1 ++ jpgExt))

/-- The final file names step 7 leaves in one directory. -/
def step7_dir (files : List (List Char)) : List (List Char) :=
  (step7_map files).map Prod.snd

/-- One-step unfolding of `splitRuns` at a cons cell. -/
theorem splitRuns_cons (c : Char) (cs : List Char) :
    splitRuns (c :: cs)
      = match splitRuns cs with
        | [] => [[]]
        | r :: rs =>
          if isNd c then
            match r, rs with
            | [], d :: rs2 => [] :: (c :: d) :: rs2
            | [], [] => [[], [c], []]
            | _ :: _, _ => [] :: [c] :: r :: rs
          else (c :: r) :: rs := rfl

theorem splitRuns_all_nonNd :
    ∀ (nds : List Char), nds ≠ [] → nds.all (fun c => !isNd c) = true →
      splitRuns nds = [nds] := by
  intro nds
  induction nds with
  | nil => intro h; exact absurd rfl h
  | cons c cs ih =>
    intro _ hall
    simp only [List.all_cons, Bool.and_eq_true, Bool.not_eq_true'] at hall
    obtain ⟨hc, hcs⟩ := hall
    cases cs with
    | nil => simp [splitRuns, hc]
    | cons c2 cs2 =>
      have hrec := ih (by simp) (by simpa using hcs)
      rw [splitRuns_cons, hrec]
      simp [hc]

theorem splitRuns_digits_append :
    ∀ (ds nds : List Char), ds ≠ [] → ds.all isNd = true →
      nds ≠ [] → nds.all (fun c => !isNd c) = true →
      splitRuns (ds ++ nds) = [[], ds, nds] := by
  intro ds
  induction ds with
  | nil => intro nds h; exact absurd rfl h
  | cons d ds ih =>
    intro nds _ hall hne hnall
    simp only [List.all_cons, Bool.and_eq_true] at hall
    obtain ⟨hd, hds⟩ := hall
    cases ds with
    | nil =>
      have h1 : splitRuns ([d] ++ nds) = splitRuns (d :: nds) := rfl
      rw [h1, splitRuns_cons, splitRuns_all_nonNd nds hne hnall]
      cases nds with
      | nil => exact absurd rfl hne
      | cons x xs => simp [hd]
    | cons d2 ds2 =>
      have hrec := ih nds (by simp) hds hne hnall
      have h1 : splitRuns ((d :: d2 :: ds2) ++ nds)
          = splitRuns (d :: ((d2 :: ds2) ++ nds)) := rfl
      rw [h1, splitRuns_cons, hrec]
      simp [hd]

theorem fmt04_all_isDigitProp (n : Nat) : (fmt04 n).all isDigitProp = true := by
  have h := fmt04_all_isNd n
  rw [List.all_eq_true] at h ⊢
  exact fun c hc => isNd_isDigitProp (h c hc)

/-- The natural-sort key of a numbered name `f"{i:04d}.jpg"`. -/
theorem natKey_numName (i : Nat) :
    natural_sort_key (fmt04 i ++ jpgExt)
      = [.str [], .num i, .str (lowerStr jpgExt)] := by
  have hsplit : splitRuns (fmt04 i ++ jpgExt) = [[], fmt04 i, jpgExt] :=
    splitRuns_digits_append (fmt04 i) jpgExt (fmt04_ne_nil i)
      (fmt04_all_isNd i) (by decide) (by decide)
  have h0 : pieceKey [] = some (.str []) := by decide
  have hj : pieceKey jpgExt = some (.str (lowerStr jpgExt)) := by decide
  have hn : pieceKey (fmt04 i) = some (.num i) := by
    unfold pieceKey
    rw [if_pos ⟨fmt04_ne_nil i, fmt04_all_isDigitProp i⟩,
      if_pos (fmt04_all_isNd i), toNatDigits_fmt04]
  unfold natural_sort_key natKeyCore
  rw [hsplit]
  simp [mapPieces, h0, hj, hn]

theorem cmpKey_numName_lt {i j : Nat} (h : i < j) :
    cmpKey (natural_sort_key (fmt04 i ++ jpgExt))
        (natural_sort_key (fmt04 j ++ jpgExt)) = some .lt := by
  rw [natKey_numName, natKey_numName]
  have hc : compare i j = .lt := Nat.compare_eq_lt.mpr h
  simp [cmpKey, cmpElem, cmpStr, hc]

theorem canonicalNames_sorted (n : Nat) :
    (canonicalNames n).Sorted keyLe := by
  rw [canonicalNames, List.Sorted]
  rw [List.pairwise_map]
  refine (List.pairwise_lt_range' 1 n).imp ?_
  intro a b hab
  rw [keyLe, cmpKey_numName_lt hab]
  simp

theorem pySorted_canonicalNames (n : Nat) :
    pySorted (canonicalNames n) = canonicalNames n :=
  List.Sorted.insertionSort_eq (canonicalNames_sorted n)

theorem enumFrom_map_numNames :
    ∀ (n k : Nat),
      (List.enumFrom k
          ((List.range' k n).map (fun i => fmt04 i ++ jpgExt))).map
        (fun p => (p.2, fmt04 p.1 ++ jpgExt))
      = ((List.range' k n).map (fun i => fmt04 i ++ jpgExt)).map
          (fun f => (f, f)) := by
  intro n
  induction n with
  | zero => intro k; rfl
  | succ n ih =>
    intro k
    rw [List.range'_succ]
    simp only [List.map_cons, List.enumFrom_cons]
    rw [ih (k + 1)]

theorem step7_map_canonicalNames (n : Nat) :
    step7_map (canonicalNames n)
      = (canonicalNames n).map (fun f => (f, f)) := by
  rw [step7_map, pySorted_canonicalNames, canonicalNames]
  exact enumFrom_map_numNames n 1

/-- C6: step 7's two-phase renumber is idempotent on an already
contiguously numbered directory: for files named `0001.jpg…000N.jpg`
the natural sort leaves them in place, every file is renamed to its own
name (keeping its position in natural-sort order), the resulting name
list is unchanged, and a second run produces the same result. -/
theorem C6_step7_two_phase_idempotent :
    ∀ (n : Nat),
      pySorted (canonicalNames n) = canonicalNames n
      ∧ step7_map (canonicalNames n) = (canonicalNames n).map (fun f => (f, f))
      ∧ step7_dir (canonicalNames n) = canonicalNames n
      ∧ step7_dir (step7_dir (canonicalNames n))
          = step7_dir (canonicalNames n) := by
  intro n
  have h3 : step7_dir (canonicalNames n) = canonicalNames n := by
    rw [step7_dir, step7_map_canonicalNames, List.map_map]
    have hid : (Prod.snd ∘ fun f : List Char => (f, f)) = id := rfl
    rw [hid, List.map_id]
  exact ⟨pySorted_canonicalNames n, step7_map_canonicalNames n, h3,
    by rw [h3]; exact h3⟩

end CPCC

namespace CPCC

/-! ## BackupManager journal and rollback

`record_operation` appends `{timestamp, operation, source, target}` to
`operation_log`; `rollback` walks `reversed(self.operation_log)`, each
record inside its own `try/except` whose handler only logs. For a
`rename` record it renames target back to source when the target exists
and the source does not; for a `move` record it copies the target back
to the source when the target exists; for a `delete` record it only
logs that the operation cannot be rolled back; records of other kinds
(`create`) match no branch and do nothing. Paths are abstract ids, the
file store maps ids to contents. -/

/-- Operation kinds journaled by `record_operation`. -/
inductive OpKind where
  | rename | move | delete | create
deriving DecidableEq

/-- One journal entry. -/
structure OpRecord where
  op : OpKind
  source : Nat
  target : Option Nat
deriving DecidableEq

/-- Abstract file store: path id → content (or absent). -/
def FS : Type := Nat → Option Nat

/-- Rolling back one journal record (the body of the loop in
`BackupManager.rollback`). -/
def rollbackRecord (fs : FS) (r : OpRecord) : FS :=
  match r.op, r.target with
  | .rename, some t =>
    if (fs t).isSome ∧ fs r.source = none then
      fun p => if p = r.source then fs t else if p = t then none else fs p
    else fs
  | .move, some t =>
    if (fs t).isSome then fun p => if p = r.source then fs t else fs p
    else fs
  | _, _ => fs

/-- Full rollback: reverse chronological order; a record whose
processing raises (the `fails` oracle) is logged and skipped, the loop
continues with the next (earlier) record. -/
def rollback (fs : FS) (log : List OpRecord) (fails : OpRecord → Bool) : FS :=
  log.reverse.foldl (fun s r => if fails r then s else rollbackRecord s r) fs

theorem rollback_append (fs : FS) (l1 l2 : List OpRecord)
    (fails : OpRecord → Bool) :
    rollback fs (l1 ++ l2) fails = rollback (rollback fs l2 fails) l1 fails := by
  unfold rollback
  rw [List.reverse_append, List.foldl_append]

/-- C5: `rollback` iterates the journal in reverse chronological order
(later entries are applied first, then the earlier ones); a rename
record restores the source from the target exactly when the target
exists and the source does not, and otherwise changes nothing; a move
record with existing target copies the target back to the source
(leaving the target in place); a delete record changes nothing (only
the unrecoverable-warning is logged); a record that raises is skipped
and processing continues with the remaining records. -/
theorem C5_rollback_semantics :
    (∀ (fs : FS) (l1 l2 : List OpRecord) (fails : OpRecord → Bool),
      rollback fs (l1 ++ l2) fails
        = rollback (rollback fs l2 fails) l1 fails)
    ∧ (∀ (fs : FS) (s t : Nat), (fs t).isSome → fs s = none →
        rollbackRecord fs ⟨.rename, s, some t⟩ s = fs t
        ∧ rollbackRecord fs ⟨.rename, s, some t⟩ t
            = (if t = s then fs t else none)
        ∧ ∀ p, p ≠ s → p ≠ t → rollbackRecord fs ⟨.rename, s, some t⟩ p = fs p)
    ∧ (∀ (fs : FS) (s t : Nat), ¬((fs t).isSome ∧ fs s = none) →
        rollbackRecord fs ⟨.rename, s, some t⟩ = fs)
    ∧ (∀ (fs : FS) (s t : Nat), (fs t).isSome →
        rollbackRecord fs ⟨.move, s, some t⟩ s = fs t
        ∧ ∀ p, p ≠ s → rollbackRecord fs ⟨.move, s, some t⟩ p = fs p)
    ∧ (∀ (fs : FS) (s t : Nat), (fs t).isSome = false →
        rollbackRecord fs ⟨.move, s, some t⟩ = fs)
    ∧ (∀ (fs : FS) (s : Nat) (t : Option Nat),
        rollbackRecord fs ⟨.delete, s, t⟩ = fs)
    ∧ (∀ (fs : FS) (r : OpRecord) (l2 : List OpRecord)
        (fails : OpRecord → Bool), fails r = true →
        rollback fs (r :: l2) fails = rollback fs l2 fails) := by
  refine ⟨rollback_append, ?_, ?_, ?_, ?_, ?_, ?_⟩
  · intro fs s t ht hs
    unfold rollbackRecord
    simp only [if_pos (And.intro ht hs)]
    refine ⟨by simp, ?_, ?_⟩
    · by_cases hts : t = s
      · subst hts; simp
      · simp [hts]
    · intro p hps hpt
      simp [hps, hpt]
  · intro fs s t hc
    unfold rollbackRecord
    simp only [if_neg hc]
  · intro fs s t ht
    unfold rollbackRecord
    simp only [if_pos ht]
    exact ⟨by simp, fun p hps => by simp [hps]⟩
  · intro fs s t ht
    unfold rollbackRecord
    simp [ht]
  · intro fs s t
    unfold rollbackRecord
    rfl
  · intro fs r l2 fails hf
    unfold rollback
    rw [List.reverse_cons, List.foldl_append]
    simp [hf]

/-- Concrete instantiation of C5: store with content 10 at path 1 and
nothing at 0; rolling back the rename record `0 → 1` restores path 0
and clears path 1; a move record `2 → 1` copies path 1 to path 2; a
delete record changes nothing; a failing record in front of the rename
is skipped while the rename is still processed. -/
theorem C5_rollback_semantics_witness :
    ((fun p => if p = 1 then some 10 else none : FS) 1).isSome = true
    ∧ (fun p => if p = 1 then some 10 else none : FS) 0 = none
    ∧ rollbackRecord (fun p => if p = 1 then some 10 else none)
        ⟨.rename, 0, some 1⟩ 0 = some 10
    ∧ rollbackRecord (fun p => if p = 1 then some 10 else none)
        ⟨.move, 2, some 1⟩ 2 = some 10
    ∧ rollbackRecord (fun p => if p = 1 then some 10 else none)
        ⟨.delete, 1, none⟩ = (fun p => if p = 1 then some 10 else none)
    ∧ rollback (fun p => if p = 1 then some 10 else none)
        [⟨.create, 5, none⟩, ⟨.rename, 0, some 1⟩] (fun r => r.op = .create) 0
        = some 10 := by
  have hfs1 : ((fun p => if p = 1 then some 10 else none : FS) 1).isSome
      = true := by decide
  have hfs0 : (fun p => if p = 1 then some 10 else none : FS) 0 = none := by
    decide
  refine ⟨hfs1, hfs0, ?_, ?_, ?_, ?_⟩
  · exact ((C5_rollback_semantics.2.1 _ 0 1 (by decide) (by decide)).1)
  · exact ((C5_rollback_semantics.2.2.2.1 _ 2 1 (by decide)).1)
  · exact C5_rollback_semantics.2.2.2.2.2.1 _ 1 none
  · have hskip := C5_rollback_semantics.2.2.2.2.2.2
      (fun p => if p = 1 then some 10 else none) ⟨.create, 5, none⟩
      [⟨.rename, 0, some 1⟩] (fun r => decide (r.op = .create)) (by decide)
    rw [hskip]
    have hren := (C5_rollback_semantics.2.1
      (fun p => if p = 1 then some 10 else none) 0 1 (by decide) (by decide)).1
    rw [show rollback (fun p => if p = 1 then some 10 else none)
        [⟨.rename, 0, some 1⟩] (fun r => decide (r.op = .create))
      = rollbackRecord (fun p => if p = 1 then some 10 else none)
        ⟨.rename, 0, some 1⟩ from rfl]
    exact hren

end CPCC

namespace CPCC

/-! ## Confirmation protocol (`confirm_operation`)

The function consults `config["dry_run"]`, then
`config["skip_step_confirmations"] or not config["interactive_mode"]`,
and otherwise prompts; the response goes through `.strip().lower()`.
An `'a'` answer sets the skip flag, calls `save_config()` immediately
and proceeds; an empty or `'y'` answer proceeds; anything else
declines. The model returns the boolean, the updated flags and whether
the configuration was persisted. -/

/-- The three flags `confirm_operation` reads. -/
structure ConfigFlags where
  dry_run : Bool
  skip_step_confirmations : Bool
  interactive_mode : Bool
deriving DecidableEq

/-- Outcome of one confirmation: the returned boolean, the flags
afterwards, and whether `save_config()` ran. -/
structure ConfirmResult where
  proceed : Bool
  config : ConfigFlags
  saved : Bool
deriving DecidableEq

/-- Model of Python `str.strip()`. -/
def pyStrip (s : List Char) : List Char :=
  ((s.dropWhile Char.isWhitespace).reverse.dropWhile Char.isWhitespace).reverse

/-- Model of `confirm_operation`; `response` is what `input()` returns
when the prompt is reached. -/
def confirm_operation (config : ConfigFlags) (response : List Char) :
    ConfirmResult :=
  if config.dry_run then ⟨true, config, false⟩
  else if config.skip_step_confirmations || !config.interactive_mode then
    ⟨true, config, false⟩
  else
    if lowerStr (pyStrip response) = ['a'] then
      ⟨true, { config with skip_step_confirmations := true }, true⟩
    else
      ⟨decide (lowerStr (pyStrip response) = []
        ∨ lowerStr (pyStrip response) = ['y']), config, false⟩

/-- C9: the confirmation protocol. Dry-run auto-confirms without
touching the flags; so does a set skip-confirmations flag or unset
interactive mode. Otherwise the prompt is used: an "always" response
(`'a'` after strip/lower) confirms, sets the skip flag and persists
immediately; an empty or `'y'` response confirms without changing
anything; any other response declines without changing anything. -/
theorem C9_confirm_operation_protocol :
    (∀ (s i : Bool) (resp : List Char),
      confirm_operation ⟨true, s, i⟩ resp = ⟨true, ⟨true, s, i⟩, false⟩)
    ∧ (∀ (i : Bool) (resp : List Char),
      confirm_operation ⟨false, true, i⟩ resp = ⟨true, ⟨false, true, i⟩, false⟩)
    ∧ (∀ (s : Bool) (resp : List Char),
      confirm_operation ⟨false, s, false⟩ resp = ⟨true, ⟨false, s, false⟩, false⟩)
    ∧ (∀ resp : List Char, lowerStr (pyStrip resp) = ['a'] →
      confirm_operation ⟨false, false, true⟩ resp
        = ⟨true, ⟨false, true, true⟩, true⟩)
    ∧ (∀ resp : List Char,
      lowerStr (pyStrip resp) = [] ∨ lowerStr (pyStrip resp) = ['y'] →
      confirm_operation ⟨false, false, true⟩ resp
        = ⟨true, ⟨false, false, true⟩, false⟩)
    ∧ (∀ resp : List Char, lowerStr (pyStrip resp) ≠ ['a'] →
      lowerStr (pyStrip resp) ≠ [] → lowerStr (pyStrip resp) ≠ ['y'] →
      confirm_operation ⟨false, false, true⟩ resp
        = ⟨false, ⟨false, false, true⟩, false⟩) := by
  refine ⟨?_, ?_, ?_, ?_, ?_, ?_⟩
  · intro s i resp
    simp [confirm_operation]
  · intro i resp
    simp [confirm_operation]
  · intro s resp
    simp [confirm_operation]
  · intro resp ha
    simp [confirm_operation, ha]
  · intro resp hy
    have hna : lowerStr (pyStrip resp) ≠ ['a'] := by
      rcases hy with h | h <;> rw [h] <;> decide
    simp only [confirm_operation, Bool.false_eq_true, if_false,
      Bool.or_self, hna, decide_eq_true_eq]
    simp [hna, hy]
  · intro resp hna hne hny
    simp only [confirm_operation]
    simp [hna, hne, hny]

/-- Concrete instantiation of C9: the response `" A "` confirms, flips
the skip flag and persists; `"Y"` confirms with no change; `"no"`
declines with no change. -/
theorem C9_confirm_operation_protocol_witness :
    lowerStr (pyStrip " A ".data) = ['a']
    ∧ confirm_operation ⟨false, false, true⟩ " A ".data
        = ⟨true, ⟨false, true, true⟩, true⟩
    ∧ confirm_operation ⟨false, false, true⟩ "Y".data
        = ⟨true, ⟨false, false, true⟩, false⟩
    ∧ confirm_operation ⟨false, false, true⟩ "no".data
        = ⟨false, ⟨false, false, true⟩, false⟩ := by
  refine ⟨by decide, ?_, ?_, ?_⟩
  · exact C9_confirm_operation_protocol.2.2.2.1 " A ".data (by decide)
  · exact C9_confirm_operation_protocol.2.2.2.2.1 "Y".data (Or.inr (by decide))
  · exact C9_confirm_operation_protocol.2.2.2.2.2 "no".data
      (by decide) (by decide) (by decide)

end CPCC

namespace CPCC

/-! ## Step 9: rename archives (`step9_rename_cbz`)

The candidates are `root.glob('*.zip')` — the *top-level* `.zip` files
only, the glob is not recursive — and each is renamed to
`zip_file.with_suffix('.cbz')`.  Step 8 produces its archive next to
the leaf directory (`directory.with_suffix('.zip')`), which may be at
any depth.  Paths are lists of name components relative to the working
directory; the file store is the list of file paths. -/

/-- The literal `".zip"` suffix. -/
def zipExtL : List Char := ".zip".data

/-- The literal `".cbz"` suffix. -/
def cbzExtL : List Char := ".cbz".data

/-- Model of `pathlib.Path.with_suffix` on a name: replace the suffix
(the part from the last dot, when that dot is neither the first nor the
last character), else append the new suffix. -/
def suffixSplit (n : List Char) : Nat :=
  (n.reverse.takeWhile (fun c => c ≠ '.')).length

def pyWithSuffix (n ext : List Char) : List Char :=
  if suffixSplit n < n.length ∧ 0 < suffixSplit n
      ∧ suffixSplit n < n.length - 1 then
    n.take (n.length - 1 - suffixSplit n) ++ ext
  else n ++ ext

/-- Step 9 over the file store: every top-level (single-component) path
whose name ends in `.zip` is renamed to the `.cbz` suffix; every other
path is untouched. -/
def step9_run (files : List (List (List Char))) : List (List (List Char)) :=
  files.map (fun p =>
    match p with
    | [n] => if zipExtL.isSuffixOf n then [pyWithSuffix n cbzExtL] else [n]
    | q => q)

/-- The path of the archive step 8 creates for the leaf directory at
path `d` (`directory.with_suffix('.zip')`: a sibling of the leaf). -/
def zipPathOf : List (List Char) → List (List Char)
  | [] => []
  | [n] => [pyWithSuffix n zipExtL]
  | c :: rest => c :: zipPathOf rest

theorem takeWhile_reverse_append_zip (s : List Char) :
    suffixSplit (s ++ zipExtL) = 3 := by
  rw [suffixSplit, List.reverse_append]
  have hz : zipExtL.reverse = ['p', 'i', 'z', '.'] := by decide
  rw [hz]
  simp [List.takeWhile_cons]

/-- `with_suffix` on a name of the form `<stem>.zip` with nonempty stem
replaces the `.zip` part. -/
theorem pyWithSuffix_zip_name (s ext : List Char) (hs : s ≠ []) :
    pyWithSuffix (s ++ zipExtL) ext = s ++ ext := by
  have hslen : 0 < s.length := List.length_pos.mpr hs
  have hlen : (s ++ zipExtL).length = s.length + 4 := by
    simp [zipExtL]
  unfold pyWithSuffix
  rw [takeWhile_reverse_append_zip]
  rw [if_pos (by omega)]
  have htake : s.length + 4 - 1 - 3 = s.length := by omega
  rw [hlen, htake, List.take_left]

theorem not_zip_isSuffixOf_cbz (x : List Char) :
    zipExtL.isSuffixOf (x ++ cbzExtL) = false := by
  rw [Bool.eq_false_iff]
  intro hc
  rw [List.isSuffixOf_iff_suffix] at hc
  obtain ⟨t, ht⟩ := hc
  have h1 : (t ++ zipExtL).getLast? = some 'p' := by
    rw [List.getLast?_append_of_ne_nil t (by decide)]
    decide
  have h2 : (x ++ cbzExtL).getLast? = some 'z' := by
    rw [List.getLast?_append_of_ne_nil x (by decide)]
    decide
  rw [ht, h2] at h1
  exact absurd h1 (by decide)

theorem not_zip_isSuffixOf_withSuffix_cbz (n : List Char) :
    zipExtL.isSuffixOf (pyWithSuffix n cbzExtL) = false := by
  rw [pyWithSuffix]
  split <;> exact not_zip_isSuffixOf_cbz _

/-- C7 counterexample: a leaf directory at depth 2 (`A/B`) gets its
archive at `A/B.zip`; step 9's non-recursive `root.glob('*.zip')` never
sees it, so after step 9 this step-8 `.zip` still exists under the
working directory, contradicting the claim. -/
theorem C7_deep_zip_survives_step9 :
    zipPathOf ["A".data, "B".data] = ["A".data, "B.zip".data]
    ∧ step9_run [["A".data, "B.zip".data]] = [["A".data, "B.zip".data]]
    ∧ ["A".data, "B.zip".data] ∈ step9_run [["A".data, "B.zip".data]]
    ∧ zipExtL.isSuffixOf "B.zip".data = true := by
  refine ⟨?_, by decide, by decide, by decide⟩
  decide

/-- C7 amended: step 9 renames exactly the `.zip` files directly in the
working directory: afterwards no top-level `.zip` remains and every
top-level step-8 archive `<stem>.zip` has become `<stem>.cbz`, but
paths of two or more components — including `.zip` archives produced by
step 8 beside deeper leaf directories — are left untouched. -/
theorem C7_step9_renames_only_root_level :
    (∀ (files : List (List (List Char))) (n : List Char),
      [n] ∈ step9_run files → zipExtL.isSuffixOf n = false)
    ∧ (∀ (files : List (List (List Char))) (p : List (List Char)),
        p ∈ files → p.length ≠ 1 → p ∈ step9_run files)
    ∧ (∀ s : List Char, s ≠ [] → pyWithSuffix (s ++ zipExtL) cbzExtL
        = s ++ cbzExtL)
    ∧ (∀ (files : List (List (List Char))) (s : List Char), s ≠ [] →
        [s ++ zipExtL] ∈ files → [s ++ cbzExtL] ∈ step9_run files) := by
  refine ⟨?_, ?_, fun s hs => pyWithSuffix_zip_name s cbzExtL hs, ?_⟩
  · intro files n hmem
    rw [step9_run, List.mem_map] at hmem
    obtain ⟨q, hq, himg⟩ := hmem
    match q with
    | [] => exact absurd himg (by simp)
    | [m] =>
      by_cases hz : zipExtL.isSuffixOf m = true
      · simp only [hz, if_true] at himg
        have hn : n = pyWithSuffix m cbzExtL := by
          simpa using himg.symm
        rw [hn]
        exact not_zip_isSuffixOf_withSuffix_cbz m
      · rw [Bool.not_eq_true] at hz
        simp only [hz, Bool.false_eq_true, if_false] at himg
        have hn : n = m := by simpa using himg.symm
        rw [hn, hz]
    | a :: b :: rest => exact absurd himg (by simp)
  · intro files p hp hlen
    rw [step9_run, List.mem_map]
    refine ⟨p, hp, ?_⟩
    match p with
    | [] => rfl
    | [m] => exact absurd rfl hlen
    | a :: b :: rest => rfl
  · intro files s hs hmem
    rw [step9_run, List.mem_map]
    refine ⟨[s ++ zipExtL], hmem, ?_⟩
    have hz : zipExtL.isSuffixOf (s ++ zipExtL) = true := by
      simp [List.isSuffixOf_iff_suffix]
    simp only [hz, if_true]
    rw [pyWithSuffix_zip_name s cbzExtL hs]

/-- Concrete instantiation of C7 amended: with a root-level `A.zip` and
a deep `A/B.zip`, step 9 turns `A.zip` into `A.cbz` and leaves
`A/B.zip` in place; no top-level `.zip` remains. -/
theorem C7_step9_renames_only_root_level_witness :
    ("A".data ++ zipExtL = "A.zip".data)
    ∧ ["A".data, "B.zip".data]
        ∈ step9_run [["A.zip".data], ["A".data, "B.zip".data]]
    ∧ ["A".data ++ cbzExtL]
        ∈ step9_run [["A".data ++ zipExtL], ["A".data, "B.zip".data]]
    ∧ zipExtL.isSuffixOf "A.cbz".data = false := by
  refine ⟨by decide, ?_, ?_, ?_⟩
  · exact C7_step9_renames_only_root_level.2.1
      [["A.zip".data], ["A".data, "B.zip".data]]
      ["A".data, "B.zip".data] (by decide) (by decide)
  · exact C7_step9_renames_only_root_level.2.2.2
      [["A".data ++ zipExtL], ["A".data, "B.zip".data]] "A".data
      (by decide) (by decide)
  · exact C7_step9_renames_only_root_level.1
      [["A.cbz".data]] "A.cbz".data (by decide)

end CPCC

namespace CPCC

/-! ## C1: journal-entry / mutation ordering

Per-item event traces of the success path of every step, transcribed
from the source: a `journal k` event is a `record_operation(k, ...)`
call, a `mutate k` event is the filesystem mutation of kind `k`
(`rename`/`shutil.move`/`unlink`/`rmdir`/`rmtree`/file creation). -/

/-- Kinds of journaled operations and mutations. -/
inductive FsOp where
  | rename | move | delete | create
deriving DecidableEq

/-- One event on a step's success path. -/
inductive PipeEvent where
  | journal : FsOp → PipeEvent
  | mutate : FsOp → PipeEvent
deriving DecidableEq

/-- `safe_rename` (steps 2, 3, 4): `record_operation("rename", ...)`,
then `src.rename(final_dst)`. -/
def safe_rename_events : List PipeEvent := [.journal .rename, .mutate .rename]

/-- Step 1 per converted file: `rgb_img.save(new_path)` (a file
creation that is never journaled), then `record_operation("delete",
file)`, then `file.unlink()`. -/
def step1_item_events : List PipeEvent :=
  [.mutate .create, .journal .delete, .mutate .delete]

/-- Step 2 per file: via `safe_rename`. -/
def step2_item_events : List PipeEvent := safe_rename_events

/-- Step 3 per subdirectory: via `safe_rename`. -/
def step3_item_events : List PipeEvent := safe_rename_events

/-- Step 4 per file: via `safe_rename`. -/
def step4_item_events : List PipeEvent := safe_rename_events

/-- Step 5 per file: `shutil.move(...)`, then
`record_operation("move", file, new_path)`. -/
def step5_item_events : List PipeEvent := [.mutate .move, .journal .move]

/-- Step 6 per empty directory: `path.rmdir()`, then
`record_operation("delete", path)`. -/
def step6_item_events : List PipeEvent := [.mutate .delete, .journal .delete]

/-- Step 7 phase 1 per file: `shutil.move(file, temp_file)`, then
`record_operation("move", ...)`. -/
def step7_phase1_item_events : List PipeEvent :=
  [.mutate .move, .journal .move]

/-- Step 7 phase 2 per file: `shutil.move(temp_file, new_path)`, then
`record_operation("move", ...)`. -/
def step7_phase2_item_events : List PipeEvent :=
  [.mutate .move, .journal .move]

/-- Step 8 per leaf directory (success path, no prior archive): write
the temp archive (creation, never journaled), rename it into place,
`record_operation("create", zip_file)`, `shutil.rmtree(directory)`,
`record_operation("delete", directory)`. -/
def step8_item_events : List PipeEvent :=
  [.mutate .create, .mutate .rename, .journal .create,
   .mutate .delete, .journal .delete]

/-- Step 9 per archive: `zip_file.rename(cbz_file)`, then
`record_operation("rename", ...)`. -/
def step9_item_events : List PipeEvent := [.mutate .rename, .journal .rename]

/-- The per-item traces of the nine steps (step 7 contributes its two
phases). -/
def pipeline_item_traces : List (List PipeEvent) :=
  [step1_item_events, step2_item_events, step3_item_events,
   step4_item_events, step5_item_events, step6_item_events,
   step7_phase1_item_events, step7_phase2_item_events,
   step8_item_events, step9_item_events]

/-- Scan keeping the kinds journaled so far; collects the mutations not
preceded by a journal entry of the same kind. -/
def mutationsUnjournaledBefore : List FsOp → List PipeEvent → List FsOp
  | _, [] => []
  | seen, .journal op :: rest => mutationsUnjournaledBefore (op :: seen) rest
  | seen, .mutate op :: rest =>
    if op ∈ seen then mutationsUnjournaledBefore seen rest
    else op :: mutationsUnjournaledBefore seen rest

/-- Every mutation in the trace has an earlier journal entry of the
same kind. -/
def journalPrecedes (tr : List PipeEvent) : Bool :=
  mutationsUnjournaledBefore [] tr = []

/-- Every mutation in the trace has a journal entry of the same kind
somewhere later in the trace. -/
def journalFollowsLater : List PipeEvent → Bool
  | [] => true
  | .journal _ :: rest => journalFollowsLater rest
  | .mutate op :: rest =>
    decide (PipeEvent.journal op ∈ rest) && journalFollowsLater rest

/-- C1 counterexample: in step 5 the `shutil.move` executes before its
journal entry is recorded, so the claim that in every step the journal
entry is appended before the mutation fails at step 5 (and the bounded
claim over all per-item traces is false). -/
theorem C1_step5_mutation_before_journal :
    journalPrecedes step5_item_events = false
    ∧ step5_item_events ∈ pipeline_item_traces
    ∧ ¬ (∀ tr ∈ pipeline_item_traces, journalPrecedes tr = true) := by
  refine ⟨by decide, by decide, ?_⟩
  intro hall
  have := hall step5_item_events (by decide)
  exact absurd this (by decide)

/-- C1 amended: the journal entry precedes the mutation only in the
`safe_rename`-based steps 2, 3 and 4; in step 1 the original's deletion
is journaled before the `unlink` but the converted JPG's creation is
never journaled; in steps 5, 6, 7 (both phases) and 9 the single
mutation executes first and its journal entry is appended immediately
afterwards; in step 8 the temp-archive creation, the rename into place
and the source-tree deletion all execute before (or without) their
journal entries. -/
theorem C1_journal_ordering_amended :
    mutationsUnjournaledBefore [] step2_item_events = []
    ∧ mutationsUnjournaledBefore [] step3_item_events = []
    ∧ mutationsUnjournaledBefore [] step4_item_events = []
    ∧ mutationsUnjournaledBefore [] step1_item_events = [.create]
    ∧ mutationsUnjournaledBefore [] step5_item_events = [.move]
    ∧ mutationsUnjournaledBefore [] step6_item_events = [.delete]
    ∧ mutationsUnjournaledBefore [] step7_phase1_item_events = [.move]
    ∧ mutationsUnjournaledBefore [] step7_phase2_item_events = [.move]
    ∧ mutationsUnjournaledBefore [] step8_item_events
        = [.create, .rename, .delete]
    ∧ mutationsUnjournaledBefore [] step9_item_events = [.rename]
    ∧ journalFollowsLater step5_item_events = true
    ∧ journalFollowsLater step6_item_events = true
    ∧ journalFollowsLater step7_phase1_item_events = true
    ∧ journalFollowsLater step7_phase2_item_events = true
    ∧ journalFollowsLater step9_item_events = true := by
  decide

end CPCC

namespace CPCC

/-! ## C3: dry-run frame property

With `dry_run` set every filesystem mutation of steps 1–6, 8 and 9 sits
under `if not config["dry_run"]` (directly or inside `safe_rename`), so
those steps log only.  Step 7 however enters
`tempfile.TemporaryDirectory(dir=str(directory.parent))` before any
dry-run check: a fresh temporary staging directory is created inside
the working tree for every parent directory and removed again when the
context exits; the per-file moves of both phases are skipped.  Effects
are modelled on the working tree as a list of entries; a
`TemporaryDirectory` name is fresh, so creation/removal is
prepend/erase. -/

/-- Filesystem effects a step performs in dry-run mode. -/
inductive FsEffect where
  | mkdirTemp : Nat → FsEffect
  | rmdirTemp : Nat → FsEffect
deriving DecidableEq

/-- Step 1 in dry-run: per candidate file, log only. -/
def step1_dryRunEffects (convert_list : List Nat) : List FsEffect :=
  convert_list.flatMap (fun _ => [])

/-- Step 2 in dry-run: `safe_rename` returns after logging. -/
def step2_dryRunEffects (files : List Nat) : List FsEffect :=
  files.flatMap (fun _ => [])

/-- Step 3 in dry-run: `safe_rename` returns after logging. -/
def step3_dryRunEffects (subdirs : List Nat) : List FsEffect :=
  subdirs.flatMap (fun _ => [])

/-- Step 4 in dry-run: `safe_rename` returns after logging. -/
def step4_dryRunEffects (files : List Nat) : List FsEffect :=
  files.flatMap (fun _ => [])

/-- Step 5 in dry-run: the `shutil.move` is guarded. -/
def step5_dryRunEffects (files : List Nat) : List FsEffect :=
  files.flatMap (fun _ => [])

/-- Step 6 in dry-run: the `rmdir` is guarded. -/
def step6_dryRunEffects (dirs : List Nat) : List FsEffect :=
  dirs.flatMap (fun _ => [])

/-- Step 7 in dry-run: per parent directory a temporary staging
directory is created and later removed; no file is moved. -/
def step7_dryRunEffects (parentTemps : List Nat) : List FsEffect :=
  parentTemps.flatMap (fun t => [.mkdirTemp t, .rmdirTemp t])

/-- Step 8 in dry-run: the whole compress branch is guarded. -/
def step8_dryRunEffects (leafDirs : List Nat) : List FsEffect :=
  leafDirs.flatMap (fun _ => [])

/-- Step 9 in dry-run: the rename is guarded. -/
def step9_dryRunEffects (zips : List Nat) : List FsEffect :=
  zips.flatMap (fun _ => [])

/-- Dry-run effects of a full nine-step run. -/
def pipeline_dryRunEffects (c1 c2 c3 c4 c5 c6 temps c8 c9 : List Nat) :
    List FsEffect :=
  step1_dryRunEffects c1 ++ step2_dryRunEffects c2 ++ step3_dryRunEffects c3
    ++ step4_dryRunEffects c4 ++ step5_dryRunEffects c5
    ++ step6_dryRunEffects c6 ++ step7_dryRunEffects temps
    ++ step8_dryRunEffects c8 ++ step9_dryRunEffects c9

/-- Applying one effect to the working tree. -/
def applyFsEffect (fs : List Nat) : FsEffect → List Nat
  | .mkdirTemp t => t :: fs
  | .rmdirTemp t => fs.erase t

/-- Applying a trace of effects to the working tree. -/
def applyFsEffects (fs : List Nat) (es : List FsEffect) : List Nat :=
  es.foldl applyFsEffect fs

theorem flatMap_nil_effects (l : List Nat) :
    l.flatMap (fun _ => ([] : List FsEffect)) = [] := by
  induction l with
  | nil => rfl
  | cons a l ih => rw [List.flatMap_cons, ih]; rfl

/-- C3 counterexample: with dry-run enabled, step 7 still creates (and
then removes) a temporary staging directory inside the working tree for
each parent directory, so the claim that no directory is created by any
step is false. -/
theorem C3_step7_creates_temp_dir_in_dry_run :
    step7_dryRunEffects [0] = [.mkdirTemp 0, .rmdirTemp 0]
    ∧ FsEffect.mkdirTemp 0 ∈ step7_dryRunEffects [0]
    ∧ step7_dryRunEffects [0] ≠ [] := by
  refine ⟨by decide, by decide, by decide⟩

/-- C3 amended: in a dry run steps 1–6, 8 and 9 perform no filesystem
effect at all; step 7 transiently creates and removes one empty
temporary staging directory per parent directory, and its net effect on
the working tree is the identity; hence after a full dry run the
working tree is unchanged. -/
theorem C3_dry_run_tree_unchanged :
    (∀ c : List Nat, step1_dryRunEffects c = [])
    ∧ (∀ c : List Nat, step2_dryRunEffects c = [])
    ∧ (∀ c : List Nat, step3_dryRunEffects c = [])
    ∧ (∀ c : List Nat, step4_dryRunEffects c = [])
    ∧ (∀ c : List Nat, step5_dryRunEffects c = [])
    ∧ (∀ c : List Nat, step6_dryRunEffects c = [])
    ∧ (∀ c : List Nat, step8_dryRunEffects c = [])
    ∧ (∀ c : List Nat, step9_dryRunEffects c = [])
    ∧ (∀ (fs temps : List Nat),
        applyFsEffects fs (step7_dryRunEffects temps) = fs)
    ∧ (∀ (fs c1 c2 c3 c4 c5 c6 temps c8 c9 : List Nat),
        applyFsEffects fs
          (pipeline_dryRunEffects c1 c2 c3 c4 c5 c6 temps c8 c9) = fs) := by
  have hstep7 : ∀ (temps fs : List Nat),
      applyFsEffects fs (step7_dryRunEffects temps) = fs := by
    intro temps
    induction temps with
    | nil => intro fs; rfl
    | cons t ts ih =>
      intro fs
      have hunf : step7_dryRunEffects (t :: ts)
          = .mkdirTemp t :: .rmdirTemp t :: step7_dryRunEffects ts := by
        simp [step7_dryRunEffects, List.flatMap_cons]
      rw [hunf]
      have h2 : applyFsEffects fs
          (.mkdirTemp t :: .rmdirTemp t :: step7_dryRunEffects ts)
          = applyFsEffects ((t :: fs).erase t) (step7_dryRunEffects ts) := rfl
      rw [h2, List.erase_cons_head, ih fs]
  refine ⟨flatMap_nil_effects, flatMap_nil_effects, flatMap_nil_effects,
    flatMap_nil_effects, flatMap_nil_effects, flatMap_nil_effects,
    flatMap_nil_effects, flatMap_nil_effects, fun fs temps => hstep7 temps fs,
    ?_⟩
  intro fs c1 c2 c3 c4 c5 c6 temps c8 c9
  rw [pipeline_dryRunEffects, step1_dryRunEffects, step2_dryRunEffects,
    step3_dryRunEffects, step4_dryRunEffects, step5_dryRunEffects,
    step6_dryRunEffects, step8_dryRunEffects, step9_dryRunEffects,
    flatMap_nil_effects c1, flatMap_nil_effects c2, flatMap_nil_effects c3,
    flatMap_nil_effects c4, flatMap_nil_effects c5, flatMap_nil_effects c6,
    flatMap_nil_effects c8, flatMap_nil_effects c9]
  simp only [List.nil_append, List.append_nil]
  exact hstep7 temps fs

end CPCC

namespace CPCC

/-! ## C2: step 8 compress-leaf transaction (`step8_compress`)

Per leaf directory the code builds `temp_zip =
directory.with_suffix('.tmp_<uuid>.zip')`, writes the JPGs into it,
re-opens it and checks `len(zip_contents) == len(jpg_files)`, raises on
mismatch, then — only if the temp file exists — unlinks any prior
`zip_file`, renames the temp into place, records the create, removes
the source tree and records the delete.  The `except` handler unlinks
the temp file if it still exists and `continue`s with the next
directory.  The model tracks, for one directory: whether the source
directory still exists, whether a file occupies the archive path
`<dir>.zip`, and whether the temp file exists; `fail` injects an
exception at the named point (raising before the failed call takes
effect, except a mid-write failure, which leaves a partial temp file
behind for the handler). -/

/-- Abstract state of one leaf directory and its archive path. -/
structure Dir8 where
  srcDir : Bool
  zip : Bool
  temp : Bool
deriving DecidableEq

/-- The points at which an exception can be injected. -/
inductive Fail8 where
  | write | verify | unlinkPrior | renameTemp | rmtree
deriving DecidableEq

/-- The `except` handler: unlink the temp file if it exists. -/
def cleanupTemp (s : Dir8) : Dir8 := { s with temp := false }

/-- The member-count verification (`len(zip_contents) ==
len(jpg_files)`). -/
def step8_valid (zipMembers sourceCount : Nat) : Bool :=
  decide (zipMembers = sourceCount)

/-- One iteration of step 8's per-directory loop. -/
def step8_processDir (s : Dir8) (fail : Option Fail8) : Dir8 :=
  if fail = some .write ∨ fail = some .verify then
    cleanupTemp { s with temp := true }
  else if fail = some .unlinkPrior then
    cleanupTemp { s with temp := true }
  else if fail = some .renameTemp then
    cleanupTemp { s with temp := true, zip := false }
  else if fail = some .rmtree then
    { s with temp := false, zip := true }
  else
    { srcDir := false, zip := true, temp := false }

/-- Step 8's loop over the leaf directories: each directory is handled
independently, an exception in one (caught by the handler) never stops
the loop. -/
def step8_run (items : List (Dir8 × Option Fail8)) : List Dir8 :=
  items.map (fun it => step8_processDir it.1 it.2)

/-- C2 counterexample: with a prior archive of the same name present, a
failure injected mid-write leaves that prior `.zip` in place, so a
`.zip` for that directory does exist afterward; likewise a failure
during the source-directory removal (after the verified rename) leaves
the new `.zip` in place.  Both contradict the claim that after any
failure no `.zip`/`.cbz` for the directory exists. -/
theorem C2_zip_exists_after_failure :
    step8_processDir ⟨true, true, false⟩ (some .write) = ⟨true, true, false⟩
    ∧ (step8_processDir ⟨true, true, false⟩ (some .write)).zip = true
    ∧ (step8_processDir ⟨true, false, false⟩ (some .rmtree)).zip = true := by
  refine ⟨by decide, by decide, by decide⟩

/-- C2 amended: the archive is built at a temp path and verified
(member count must equal the source JPG count) before it replaces any
prior archive.  On a failure during writing, verification or the
removal of a prior archive, the temp archive is discarded and the
source directory and any prior archive are left untouched; on a failure
of the rename itself the temp archive is discarded and no archive
remains (a prior archive has already been removed); on a failure while
deleting the source directory the new verified archive remains in
place.  On success the archive is in place, the source directory is
gone and no temp file remains.  The temp file never survives an
iteration, and the loop always continues with the remaining
directories. -/
theorem C2_step8_transaction_semantics :
    (∀ (m n : Nat), step8_valid m n = true ↔ m = n)
    ∧ (∀ (s : Dir8) (fail : Option Fail8),
        fail = some .write ∨ fail = some .verify ∨ fail = some .unlinkPrior →
        step8_processDir s fail = { s with temp := false })
    ∧ (∀ s : Dir8, step8_processDir s (some .renameTemp)
        = { s with temp := false, zip := false })
    ∧ (∀ s : Dir8, (step8_processDir s (some .rmtree)).zip = true
        ∧ (step8_processDir s (some .rmtree)).temp = false)
    ∧ (∀ s : Dir8, step8_processDir s none = ⟨false, true, false⟩)
    ∧ (∀ (s : Dir8) (fail : Option Fail8),
        (step8_processDir s fail).temp = false)
    ∧ (∀ xs ys : List (Dir8 × Option Fail8),
        step8_run (xs ++ ys) = step8_run xs ++ step8_run ys) := by
  refine ⟨?_, ?_, ?_, ?_, ?_, ?_, ?_⟩
  · intro m n
    simp [step8_valid]
  · rintro s fail (rfl | rfl | rfl) <;> rfl
  · intro s; rfl
  · intro s; exact ⟨rfl, rfl⟩
  · intro s; rfl
  · intro s fail
    rcases fail with _ | f
    · rfl
    · rcases f <;> rfl
  · intro xs ys
    simp [step8_run]

/-- Concrete instantiation of C2 amended: a mid-write failure with a
prior archive present discards the temp and keeps source and prior
archive; a rename failure leaves no archive; success replaces the
archive and removes the source. -/
theorem C2_step8_transaction_semantics_witness :
    step8_processDir ⟨true, true, false⟩ (some .verify) = ⟨true, true, false⟩
    ∧ step8_processDir ⟨true, true, false⟩ (some .renameTemp)
        = ⟨true, false, false⟩
    ∧ step8_processDir ⟨true, true, false⟩ none = ⟨false, true, false⟩ := by
  refine ⟨?_, ?_, ?_⟩
  · exact C2_step8_transaction_semantics.2.1 ⟨true, true, false⟩
      (some .verify) (Or.inr (Or.inl rfl))
  · exact C2_step8_transaction_semantics.2.2.1 ⟨true, true, false⟩
  · exact C2_step8_transaction_semantics.2.2.2.2.1 ⟨true, true, false⟩

end CPCC
